import Mathlib

/-!
# ScheduledTasks: the aggregators, the paginated fetcher and the upsert writer of `src/main.js`

The development embeds `src/main.js` shallowly.

* A JavaScript string is a Lean `String`; the default `Array.prototype.sort` compares the
  UTF-16 code units of its operands, which `utf16` and `unitsLe` reproduce.
* A JavaScript `Set` of strings is the list of its members in insertion order (`setAdd`).
* A plain object literal `{}` used as a dictionary is the list of its own properties in creation
  order (`objSet`, `List.lookup`), enumerated in the order of `ownKeys`; the properties it
  inherits from `Object.prototype` are listed in `objectPrototypeFunctions` and `protoAccessor`,
  and a read of a key that is no own property finds them.
* A fetched document is a `Doc`: its `$id` and the three string attributes the program selects,
  each of them possibly absent. `Query.select` only restricts the attributes returned and is
  not modelled.
* Counts are natural numbers: they stay far below `2^53`, where the arithmetic of JavaScript
  numbers is exact.
* `JSON.stringify` is not modelled: a cache payload is the value that is serialised, an object
  being the list of its properties in the order of serialisation.
* The database is an external service. Its requests are a parameter of `fetchLoop` and of
  `upsertDocument`; `listDocuments` and `storeDb` are the behaviour the specification gives.
* `await Promise.all` is modelled by the order in which the aggregators settle (`awaitAll`).
* `Array.prototype.sort` with a consistent comparator is the stable sort (`List.insertionSort`).
  Where the comparator of Task 3 yields `NaN` the order is left to the engine, and the
  definition follows V8, the engine of Node (`sortV8`).
-/

namespace ScheduledTasks

/-! ## Strings, sets and plain objects -/

/-- UTF-16 code units of one Unicode scalar value. -/
def utf16Char (c : Char) : List Nat :=
  if c.toNat < 65536 then [c.toNat]
  else [55296 + (c.toNat - 65536) / 1024, 56320 + (c.toNat - 65536) % 1024]

/-- UTF-16 code units of a string, the representation JavaScript compares. -/
def utf16 (s : String) : List Nat :=
  (s.data.map utf16Char).flatten

/-- Comparison of two code unit sequences, `x <= y` in JavaScript: the first differing unit
decides, and a proper prefix is smaller. -/
def unitsLe : List Nat → List Nat → Bool
  | [], _ => true
  | _ :: _, [] => false
  | a :: as, b :: bs => decide (a < b) || (a == b && unitsLe as bs)

/-- The order of the default `Array.prototype.sort` on strings. -/
def jsLe (a b : String) : Prop :=
  unitsLe (utf16 a) (utf16 b) = true

instance jsLe.decidable : DecidableRel jsLe :=
  fun a b => inferInstanceAs (Decidable (unitsLe (utf16 a) (utf16 b) = true))

/-- The call `[...set].sort()` on an array of strings: the sort is stable and its comparison is
`jsLe`, so the result is the one of any stable sort. -/
def sortNames (names : List String) : List String :=
  names.insertionSort jsLe

/-- The call `set.add(x)` on a `Set` of strings held in insertion order. -/
def setAdd (set : List String) (x : String) : List String :=
  if x ∈ set then set else set ++ [x]

/-- Truthiness of a string attribute: `undefined`, `null` and the empty string are falsy. -/
def truthy (v : Option String) : Bool :=
  match v with
  | some s => !(s == "")
  | none => false

/-- A fetched document: `$id` and the attributes `createdBy`, `userName`, `abbreviation`. -/
structure Doc where
  id : String
  createdBy : Option String := none
  userName : Option String := none
  abbreviation : Option String := none
  deriving DecidableEq, Repr

/-- An error value thrown by the program or by the database client; `code` is `e.code`. -/
structure JSError where
  code : Option Nat
  message : String
  deriving DecidableEq, Repr

instance exceptDecidableEq {ε α : Type} [DecidableEq ε] [DecidableEq α] :
    DecidableEq (Except ε α)
  | .ok a, .ok b => if h : a = b then isTrue (by rw [h]) else isFalse (fun h' => h (by cases h'; rfl))
  | .error a, .error b =>
      if h : a = b then isTrue (by rw [h]) else isFalse (fun h' => h (by cases h'; rfl))
  | .ok _, .error _ => isFalse (fun h => by cases h)
  | .error _, .ok _ => isFalse (fun h => by cases h)

/-- The function-valued properties every plain object inherits from `Object.prototype`. -/
def objectPrototypeFunctions : List String :=
  ["constructor", "__defineGetter__", "__defineSetter__", "hasOwnProperty",
   "__lookupGetter__", "__lookupSetter__", "isPrototypeOf", "propertyIsEnumerable",
   "toString", "valueOf", "toLocaleString"]

/-- The accessor property inherited from `Object.prototype`: reading it yields the prototype
object, assigning a primitive to it does nothing. -/
def protoAccessor : String := "__proto__"

/-- Assignment `o[k] = v` to a data property of a plain object: an own property keeps its
place, a new one is created last. -/
def objSet {α : Type} : List (String × α) → String → α → List (String × α)
  | [], k, v => [(k, v)]
  | (k', v') :: rest, k, v =>
      if k' = k then (k', v) :: rest else (k', v') :: objSet rest k v

/-- Value of one decimal digit. -/
def digitValue (c : Char) : Option Nat :=
  if 48 ≤ c.toNat ∧ c.toNat ≤ 57 then some (c.toNat - 48) else none

/-- Value of a sequence of decimal digits, `acc` being the value read so far. -/
def decimalValue : List Char → Nat → Option Nat
  | [], acc => some acc
  | c :: cs, acc =>
      match digitValue c with
      | some d => decimalValue cs (10 * acc + d)
      | none => none

/-- The array index a property key denotes, if any: a canonical decimal numeral (no leading
zero) below `2^32 - 1`. -/
def arrayIndex (k : String) : Option Nat :=
  match k.data with
  | [] => none
  | c :: cs =>
      if c = '0' ∧ cs ≠ [] then none
      else
        match decimalValue (c :: cs) 0 with
        | some n => if n < 4294967295 then some n else none
        | none => none

/-- The numeric value used to order array index keys. -/
def indexValue (k : String) : Nat :=
  (arrayIndex k).getD 0

/-- Order of enumeration of property keys (`for ... in`, `Object.keys`, `JSON.stringify`): the
array indices in ascending numeric order, then the other keys in creation order. -/
def orderKeys (keys : List String) : List String :=
  (keys.filter (fun k => (arrayIndex k).isSome)).insertionSort (fun a b => indexValue a ≤ indexValue b)
    ++ keys.filter (fun k => (arrayIndex k).isNone)

/-- Own enumerable keys of a plain object in enumeration order. -/
def ownKeys {α : Type} (o : List (String × α)) : List String :=
  orderKeys (o.map Prod.fst)

/-! ## Task 1: the Links Aggregator -/

/-- The body `if (doc.createdBy) allUploadersSet.add(doc.createdBy)`. -/
def addCreatedBy (set : List String) (doc : Doc) : List String :=
  match doc.createdBy with
  | some name => if truthy (some name) then setAdd set name else set
  | none => set

/-- The payload of the links cache, `{ uploaders: [...] }`. -/
structure LinksPayload where
  uploaders : List String
  deriving DecidableEq, Repr

/-- The aggregation of `updateLinksCache` (lines 46 to 50) on the two fetched lists. -/
def updateLinksCache (youtubeDocs formDocs : List Doc) : LinksPayload :=
  let allUploadersSet := youtubeDocs.foldl addCreatedBy []
  let allUploadersSet := formDocs.foldl addCreatedBy allUploadersSet
  { uploaders := sortNames allUploadersSet }

/-! ## Task 2: the Uploader Aggregator -/

/-- The two accumulators of the loop of `updateUploaderCache`. -/
structure UploaderState where
  uploaderMapBySubject : List (String × List String)
  allUploadersSet : List String
  deriving DecidableEq, Repr

/-- The `TypeError` raised by `uploaderMapBySubject[abbreviation].add(userName)` when the value
read is inherited from `Object.prototype` and is no `Set` (the message is the one of V8). -/
def addIsNotAFunction : JSError :=
  { code := none, message := "uploaderMapBySubject[abbreviation].add is not a function" }

/-- One iteration of the loop of `updateUploaderCache` (lines 66 to 70). -/
def uploaderStep (st : UploaderState) (doc : Doc) : Except JSError UploaderState :=
  match doc.userName, doc.abbreviation with
  | some userName, some abbreviation =>
      if !truthy (some userName) || !truthy (some abbreviation) then .ok st
      else
        let all := setAdd st.allUploadersSet userName
        match st.uploaderMapBySubject.lookup abbreviation with
        | some set =>
            .ok { uploaderMapBySubject := objSet st.uploaderMapBySubject abbreviation (setAdd set userName),
                  allUploadersSet := all }
        | none =>
            if abbreviation ∈ protoAccessor :: objectPrototypeFunctions then .error addIsNotAFunction
            else
              .ok { uploaderMapBySubject := objSet st.uploaderMapBySubject abbreviation (setAdd [] userName),
                    allUploadersSet := all }
  | _, _ => .ok st

/-- The loop of `updateUploaderCache` over the fetched notes. -/
def uploaderLoop : UploaderState → List Doc → Except JSError UploaderState
  | st, [] => .ok st
  | st, doc :: rest =>
      match uploaderStep st doc with
      | .ok st' => uploaderLoop st' rest
      | .error e => .error e

/-- The object `finalData` (lines 73 to 76): `all` first, then one assignment per subject. -/
def buildFinalData (st : UploaderState) : List (String × List String) :=
  (ownKeys st.uploaderMapBySubject).foldl
    (fun finalData subject =>
      objSet finalData subject (sortNames ((st.uploaderMapBySubject.lookup subject).getD [])))
    [("all", sortNames st.allUploadersSet)]

/-- The properties of an object in the order in which `JSON.stringify` writes them. -/
def serialise {α : Type} [Inhabited α] (o : List (String × α)) : List (String × α) :=
  (ownKeys o).map (fun k => (k, (o.lookup k).getD default))

/-- The aggregation of `updateUploaderCache` (lines 62 to 76) on the fetched notes: the payload
written to the cache, or the error thrown. -/
def updateUploaderCache (noteDocs : List Doc) : Except JSError (List (String × List String)) :=
  match uploaderLoop { uploaderMapBySubject := [], allUploadersSet := [] } noteDocs with
  | .ok st => .ok (serialise (buildFinalData st))
  | .error e => .error e

/-! ## Task 3: the Teacher Stats Aggregator -/

/-- The values a cell of a count table or a field of a statistics entry can hold.
`text` is a non-empty string made of the source text of a built-in function or of
`[object Object]` followed by digits (its exact content is implementation-defined and is not
needed); `function` is a built-in function inherited from `Object.prototype`; `object` is
`Object.prototype` itself. All of them but `number 0` are truthy. -/
inductive JSValue where
  | number (n : Nat)
  | text
  | function
  | object
  deriving DecidableEq, Repr

/-- The operator `+`: numbers are added, any other pair of operands is converted to strings
and concatenated. -/
def JSValue.add : JSValue → JSValue → JSValue
  | .number a, .number b => .number (a + b)
  | _, _ => .text

/-- The expression `o[k] || 0` on a plain object `o` whose own cells are truthy: the own
property, else the property inherited from `Object.prototype`, else `0`. -/
def getOrZero (o : List (String × JSValue)) (k : String) : JSValue :=
  match o.lookup k with
  | some v => v
  | none =>
      if k = protoAccessor then .object
      else if k ∈ objectPrototypeFunctions then .function
      else .number 0

/-- The callback of `reduce` in `countCreators` (line 94). The assignment to `__proto__` runs
the inherited setter, which ignores the primitive value assigned. -/
def countStep (key : Doc → Option String) (acc : List (String × JSValue)) (doc : Doc) :
    List (String × JSValue) :=
  match key doc with
  | some name =>
      if truthy (some name) then
        if name = protoAccessor then acc
        else objSet acc name ((getOrZero acc name).add (.number 1))
      else acc
  | none => acc

/-- The function `countCreators` (lines 93 to 96). -/
def countCreators (documents : List Doc) (key : Doc → Option String) : List (String × JSValue) :=
  documents.foldl (countStep key) []

/-- One element of the array `detailedContributions` as built in memory. -/
structure TeacherEntry where
  name : String
  notes : JSValue
  forms : JSValue
  youtube : JSValue
  total : JSValue
  deriving DecidableEq, Repr

/-- The callback of `map` (lines 104 to 110). -/
def teacherEntry (noteCounts formCounts youtubeCounts : List (String × JSValue)) (name : String) :
    TeacherEntry :=
  { name := name
    notes := getOrZero noteCounts name
    forms := getOrZero formCounts name
    youtube := getOrZero youtubeCounts name
    total := ((getOrZero noteCounts name).add (getOrZero formCounts name)).add
      (getOrZero youtubeCounts name) }

/-- The number a value holds, `0` when it holds none. -/
def JSValue.toNat : JSValue → Nat
  | .number n => n
  | _ => 0

/-- Whether a value is a number. -/
def JSValue.isNumber : JSValue → Bool
  | .number _ => true
  | _ => false

/-- The order `a` before `b` that the comparator `(a, b) => b.total - a.total` asks for when
both totals are numbers. -/
def totalGe (a b : TeacherEntry) : Prop :=
  b.total.toNat ≤ a.total.toNat

instance totalGe.decidable : DecidableRel totalGe :=
  fun a b => inferInstanceAs (Decidable (b.total.toNat ≤ a.total.toNat))

/-- The value the sort of V8 works with when it calls the comparator
`(a, b) => b.total - a.total` on `a` and `b`: the difference of the totals, and `0` when the
difference is `NaN`, that is when one of the totals is no number. -/
def compareTotals (a b : TeacherEntry) : Int :=
  match b.total, a.total with
  | .number m, .number n => (m : Int) - (n : Int)
  | _, _ => 0

/-- The loop of `CountAndMakeRun` in the sort of V8: the number of elements after `previous`
that continue the run, which ends at the first element that compares below `previous` (at the
first that does not, when the run is descending). -/
def runTail (descending : Bool) : TeacherEntry → List TeacherEntry → Nat
  | _, [] => 0
  | previous, current :: rest =>
      if descending then
        if compareTotals current previous ≥ 0 then 0 else runTail descending current rest + 1
      else
        if compareTotals current previous < 0 then 0 else runTail descending current rest + 1

/-- The step `CountAndMakeRun` of the sort of V8: the run at the head of the array, reversed
when it is descending (its second element compares below its first), and the elements that
follow the run. -/
def countAndMakeRun : List TeacherEntry → List TeacherEntry × List TeacherEntry
  | a :: b :: rest =>
      let descending := decide (compareTotals b a < 0)
      let length := runTail descending b rest + 2
      let run := (a :: b :: rest).take length
      (if descending then run.reverse else run, (a :: b :: rest).drop length)
  | entries => (entries, [])

/-- The binary search of `BinaryInsertionSort` in the sort of V8 for the place of `pivot` among
the elements `left` to `right` of `sorted`: the left half is kept when `pivot` compares below
the middle element, the right half otherwise. The interval halves at each of the `fuel` steps. -/
def insertionPoint (sorted : List TeacherEntry) (pivot : TeacherEntry) : Nat → Nat → Nat → Nat
  | 0, left, _ => left
  | fuel + 1, left, right =>
      if left < right then
        let mid := left + (right - left) / 2
        match sorted[mid]? with
        | some e =>
            if compareTotals pivot e < 0 then insertionPoint sorted pivot fuel left mid
            else insertionPoint sorted pivot fuel (mid + 1) right
        | none => left
      else left

/-- One round of `BinaryInsertionSort`: `pivot` is put at its place among the sorted elements. -/
def binaryInsert (sorted : List TeacherEntry) (pivot : TeacherEntry) : List TeacherEntry :=
  let left := insertionPoint sorted pivot (sorted.length + 1) 0 sorted.length
  sorted.take left ++ pivot :: sorted.drop left

/-- The sort of V8 (the engine of Node) with the comparator `(a, b) => b.total - a.total` on an
array of fewer than 64 elements: the run at the head of the array is found, then the elements
that follow are inserted one by one by binary search. Arrays of 64 elements or more are cut by
V8 into runs sorted in this way, which it then merges; the merge is not modelled. -/
def sortV8 (entries : List TeacherEntry) : List TeacherEntry :=
  (countAndMakeRun entries).2.foldl binaryInsert (countAndMakeRun entries).1

/-- The call `.sort((a, b) => b.total - a.total)`. When every total is a number the comparator
is consistent and the result is the stable sort by descending total, whatever the engine and
the length. When some total is no number the comparator yields `NaN`, the order is
implementation-defined, and the result is the one of V8 (`sortV8`, exact below 64 entries). -/
def sortByTotal (entries : List TeacherEntry) : List TeacherEntry :=
  if entries.all (fun e => e.total.isNumber) then entries.insertionSort totalGe
  else sortV8 entries

/-- The aggregation of `updateTeacherStats` (lines 93 to 110) on the three fetched lists: the
array that is serialised. -/
def updateTeacherStats (noteDocs formDocs youtubeDocs : List Doc) : List TeacherEntry :=
  let noteCounts := countCreators noteDocs Doc.userName
  let formCounts := countCreators formDocs Doc.createdBy
  let youtubeCounts := countCreators youtubeDocs Doc.createdBy
  let allTeacherNames :=
    (ownKeys noteCounts ++ ownKeys formCounts ++ ownKeys youtubeCounts).foldl setAdd []
  sortByTotal (allTeacherNames.map (teacherEntry noteCounts formCounts youtubeCounts))

/-! ## The paginated fetcher -/

/-- The documents of a collection that follow the document whose identifier is `cursor`. -/
def afterCursor : List Doc → String → Option (List Doc)
  | [], _ => none
  | d :: rest, cursor => if d.id = cursor then some rest else afterCursor rest cursor

/-- Modelled from the spec: the database client is not part of the repository. The request
`db.listDocuments` with `Query.limit(limit)` and, when a cursor is given,
`Query.cursorAfter(cursor)` on a stable snapshot `collection` returns the first at most `limit`
documents after the cursor in the collection order, and fails when no document has the
identifier of the cursor. -/
def listDocuments (collection : List Doc) (limit : Nat) (cursor : Option String) :
    Except JSError (List Doc) :=
  match cursor with
  | none => .ok (collection.take limit)
  | some c =>
      match afterCursor collection c with
      | some rest => .ok (rest.take limit)
      | none => .error { code := some 400, message := "Invalid cursor" }

/-- The loop `while (true)` of `fetchAllDocuments` (lines 9 to 18) against a page function
`request limit cursor`; `requests` counts the page requests issued so far. The result is `none`
when `fuel` iterations did not reach the `break`. -/
def fetchLoop (request : Nat → Option String → Except JSError (List Doc)) :
    Nat → List Doc → Option String → Nat → Option (Except JSError (List Doc × Nat))
  | 0, _, _, _ => none
  | fuel + 1, documents, cursor, requests =>
      match request 100 (if truthy cursor then cursor else none) with
      | .error e => some (.error e)
      | .ok page =>
          if page.length = 0 then some (.ok (documents, requests + 1))
          else
            fetchLoop request fuel (documents ++ page) (page.getLast?.map Doc.id) (requests + 1)

/-- The function `fetchAllDocuments` (lines 4 to 20): the documents returned together with the
number of page requests issued, or the error of the failed request. -/
def fetchAllDocuments (request : Nat → Option String → Except JSError (List Doc)) (fuel : Nat) :
    Option (Except JSError (List Doc × Nat)) :=
  fetchLoop request fuel [] none 0

/-! ## The upsert writer -/

/-- The two write requests of the database client that `upsertDocument` uses, on a database
state `σ` holding documents of payload type `α`; the arguments are the collection identifier,
the document identifier and the data. A failed request leaves the state as it was. -/
structure Databases (σ α : Type) where
  updateDocument : σ → String → String → α → Except JSError σ
  createDocument : σ → String → String → α → Except JSError σ

/-- The function `upsertDocument` (lines 23 to 33). -/
def upsertDocument {σ α : Type} (db : Databases σ α) (s : σ) (collectionId documentId : String)
    (data : α) : Except JSError σ :=
  match db.updateDocument s collectionId documentId data with
  | .ok s' => .ok s'
  | .error e =>
      if e.code = some 404 then db.createDocument s collectionId documentId data
      else .error e

/-- The documents of the cache collections: collection and document identifier, then the
fields held. -/
abbrev Store (α : Type) := List ((String × String) × α)

/-- The fields of the document at an identifier, if there is one. -/
def Store.get {α : Type} : Store α → String → String → Option α
  | [], _, _ => none
  | (k, v) :: rest, collectionId, documentId =>
      if k = (collectionId, documentId) then some v else Store.get rest collectionId documentId

/-- Replacement of the fields of the document at `key`. -/
def Store.replace {α : Type} : Store α → String × String → α → Store α
  | [], _, _ => []
  | (k, v) :: rest, key, data =>
      if k = key then (k, data) :: rest else (k, v) :: Store.replace rest key data

/-- Modelled from the spec: the database is not part of the repository. An update fails with
the not-found condition (code 404) when no document has the identifier, and otherwise replaces
the fields of the document by the data supplied, without merging; a create stores the data in
a new document and fails when the identifier is taken. -/
def storeDb (α : Type) : Databases (Store α) α where
  updateDocument := fun store collectionId documentId data =>
    match store.get collectionId documentId with
    | some _ => .ok (store.replace (collectionId, documentId) data)
    | none => .error { code := some 404, message := "Document with the requested ID could not be found." }
  createDocument := fun store collectionId documentId data =>
    match store.get collectionId documentId with
    | some _ => .error { code := some 409, message := "Document with the requested ID already exists." }
    | none => .ok (store ++ [((collectionId, documentId), data)])

/-! ## The entry point -/

/-- The body of the response: `{ success: true, message }` or `{ success: false, error }`. -/
inductive ResponseBody where
  | success (message : String)
  | failure (error : String)
  deriving DecidableEq, Repr

/-- The response `res.json(body, status)`; the status is 200 when none is given. -/
structure Response where
  body : ResponseBody
  status : Nat
  deriving DecidableEq, Repr

/-- One of the three aggregator functions as the entry point sees it: the fetches and the
aggregation yield a payload or throw, then the payload is written by one call of
`upsertDocument` to the cache document `documentId` of the collection `collectionId`. -/
structure Aggregator (α : Type) where
  result : Except JSError α
  collectionId : String
  documentId : String

/-- The run of an aggregator against the database: the state it leaves, or the error thrown. -/
def Aggregator.run {σ α : Type} (db : Databases σ α) (a : Aggregator α) (s : σ) : Except JSError σ :=
  match a.result with
  | .error e => .error e
  | .ok data => upsertDocument db s a.collectionId a.documentId data

/-- The expression `await Promise.all([...])` (lines 129 to 133), the aggregators being listed
in the order in which they settle: the wait ends with the first one that throws, if any. The
result is the state of the database when the wait ends, and the error caught. -/
def awaitAll {σ α : Type} (db : Databases σ α) : σ → List (Aggregator α) → σ × Option JSError
  | s, [] => (s, none)
  | s, a :: rest =>
      match a.run db s with
      | .ok s' => awaitAll db s' rest
      | .error e => (s, some e)

/-- The exported function (lines 125 to 141): the response returned and the state of the
database at that time. -/
def main {σ α : Type} (db : Databases σ α) (s : σ) (settled : List (Aggregator α)) : Response × σ :=
  match awaitAll db s settled with
  | (s', none) => ({ body := .success "All scheduled tasks completed.", status := 200 }, s')
  | (s', some e) => ({ body := .failure e.message, status := 500 }, s')

/-- The error of the first aggregator, in the order given, whose fetch or aggregation throws. -/
def firstThrown {α : Type} : List (Aggregator α) → Option JSError
  | [] => none
  | a :: rest =>
      match a.result with
      | .ok _ => firstThrown rest
      | .error e => some e

/-- The aggregators that complete before the first one that throws. -/
def completedBefore {α : Type} : List (Aggregator α) → List (Aggregator α)
  | [] => []
  | a :: rest =>
      match a.result with
      | .ok _ => a :: completedBefore rest
      | .error _ => []

/-- The cache document an aggregator writes. -/
def Aggregator.target {α : Type} (a : Aggregator α) : String × String :=
  (a.collectionId, a.documentId)

/-! ## Predicates and data of the statements -/

/-- A list of names as the caches hold them: ascending in the order of the code units and
without repetition. -/
def SortedDistinct (names : List String) : Prop :=
  names.Sorted jsLe ∧ names.Nodup

/-- Every value of the object satisfies `P`. -/
def AllValues {α : Type} (P : α → Prop) (o : List (String × α)) : Prop :=
  ∀ p ∈ o, P p.2

/-- The invariant of the loop of `updateUploaderCache`: each set holds a name once. -/
def UploaderInv (st : UploaderState) : Prop :=
  AllValues List.Nodup st.uploaderMapBySubject ∧ st.allUploadersSet.Nodup

/-- The note records of the example in the section on testable properties. -/
def exampleNotes : List Doc :=
  [{ id := "n1", userName := some "A", abbreviation := some "M1" },
   { id := "n2", userName := some "B" },
   { id := "n3", userName := some "A", abbreviation := some "M2" }]

/-- A collection of 250 documents with the identifiers `aa`, `ab`, ..., `jp`. -/
def collection250 : List Doc :=
  (List.range 250).map
    (fun i => { id := String.mk [Char.ofNat (97 + i / 26), Char.ofNat (97 + i % 26)] })

/-- A collection of three documents. -/
def collection3 : List Doc :=
  [{ id := "a", createdBy := some "X" }, { id := "b" }, { id := "c", createdBy := some "Y" }]

/-- The documents of the example on teacher statistics: note counts `{X:2}`, form counts
`{X:1,Y:3}` and YouTube counts `{Y:1}`. -/
def exampleNoteDocs : List Doc :=
  [{ id := "n1", userName := some "X" }, { id := "n2", userName := some "X" }]

/-- The form documents of the example on teacher statistics. -/
def exampleFormDocs : List Doc :=
  [{ id := "f1", createdBy := some "X" }, { id := "f2", createdBy := some "Y" },
   { id := "f3", createdBy := some "Y" }, { id := "f4", createdBy := some "Y" }]

/-- The YouTube documents of the example on teacher statistics. -/
def exampleYoutubeDocs : List Doc :=
  [{ id := "y1", createdBy := some "Y" }]

/-- The array the example on teacher statistics gives. -/
def exampleStats : List TeacherEntry :=
  [{ name := "Y", notes := .number 0, forms := .number 3, youtube := .number 1, total := .number 4 },
   { name := "X", notes := .number 2, forms := .number 1, youtube := .number 0, total := .number 3 }]

/-- The property names a plain object inherits from `Object.prototype`. -/
def inheritedKeys : List String :=
  protoAccessor :: objectPrototypeFunctions

/-- The number of documents whose creator field `key` holds `name`. -/
def occurrences (documents : List Doc) (key : Doc → Option String) (name : String) : Nat :=
  documents.countP (fun d => decide (key d = some name))

/-- No document has a creator named like a property inherited from `Object.prototype`. -/
def CleanCreators (documents : List Doc) (key : Doc → Option String) : Prop :=
  ∀ d ∈ documents, ∀ name, key d = some name → name ∉ inheritedKeys

/-- The count a table holds for a name, `0` when it has no cell for it. -/
def cellCount (table : List (String × JSValue)) (name : String) : Nat :=
  match table.lookup name with
  | some v => v.toNat
  | none => 0

/-- A count table whose cells hold positive numbers, one cell per key. -/
def NumericTable (table : List (String × JSValue)) : Prop :=
  (table.map Prod.fst).Nodup ∧ ∀ p ∈ table, ∃ n, 0 < n ∧ p.2 = JSValue.number n

/-- The record `d` has both fields, `userName` and `abbreviation`, present and non-empty. -/
def Qualifies (d : Doc) (userName abbreviation : String) : Prop :=
  d.userName = some userName ∧ d.abbreviation = some abbreviation
    ∧ userName ≠ "" ∧ abbreviation ≠ ""

/-- No record has a subject named `all` or like a property inherited from `Object.prototype`. -/
def CleanSubjects (noteDocs : List Doc) : Prop :=
  ∀ d ∈ noteDocs, ∀ a, d.abbreviation = some a → a ∉ inheritedKeys ∧ a ≠ "all"

/-- The state of the loop of `updateUploaderCache` after the records `seen`: the set of each
subject holds the names of the records of the subject, a subject has a set when a record has
it, and the global set holds the names of all the records with both fields. -/
def UploaderSpec (st : UploaderState) (seen : List Doc) : Prop :=
  (st.uploaderMapBySubject.map Prod.fst).Nodup
    ∧ (∀ a set, st.uploaderMapBySubject.lookup a = some set →
        set.Nodup ∧ set ≠ [] ∧ ∀ u, u ∈ set ↔ ∃ d ∈ seen, Qualifies d u a)
    ∧ (∀ a, (∃ d ∈ seen, ∃ u, Qualifies d u a) → (st.uploaderMapBySubject.lookup a).isSome)
    ∧ st.allUploadersSet.Nodup
    ∧ ∀ u, u ∈ st.allUploadersSet ↔ ∃ d ∈ seen, ∃ a, Qualifies d u a

/-- An aggregator that completes with the payload `1` for the document `links`. -/
def linksDone : Aggregator Nat :=
  { result := .ok 1, collectionId := "cache", documentId := "links" }

/-- An aggregator whose fetch fails. -/
def uploaderFailed : Aggregator Nat :=
  { result := .error { code := some 500, message := "fetch failed" },
    collectionId := "cache", documentId := "uploaders" }

/-- An aggregator that completes with the payload `3` for the document `teachers`. -/
def statsDone : Aggregator Nat :=
  { result := .ok 3, collectionId := "stats", documentId := "teachers" }

/-- Two note records, the second of a subject named `all`. -/
def notesWithSubjectAll : List Doc :=
  [{ id := "n1", userName := some "A", abbreviation := some "M1" },
   { id := "n2", userName := some "B", abbreviation := some "all" }]

/-- One note record of a creator named `__proto__`. -/
def notesOfProto : List Doc :=
  [{ id := "n1", userName := some "__proto__" }]

/-- No record has a subject named like a property inherited from `Object.prototype`. -/
def NoInheritedSubject (noteDocs : List Doc) : Prop :=
  ∀ d ∈ noteDocs, ∀ a, d.abbreviation = some a → a ∉ inheritedKeys

instance NoInheritedSubject.decidable (noteDocs : List Doc) : Decidable (NoInheritedSubject noteDocs) :=
  inferInstanceAs (Decidable (∀ d ∈ noteDocs, ∀ a ∈ d.abbreviation, a ∉ inheritedKeys))

instance CleanCreators.decidable (documents : List Doc) (key : Doc → Option String) :
    Decidable (CleanCreators documents key) :=
  inferInstanceAs (Decidable (∀ d ∈ documents, ∀ name ∈ key d, name ∉ inheritedKeys))

/-- Four note records of the creators `X`, `constructor`, `Y` and `Y`. -/
def notesWithConstructor : List Doc :=
  [{ id := "n1", userName := some "X" }, { id := "n2", userName := some "constructor" },
   { id := "n3", userName := some "Y" }, { id := "n4", userName := some "Y" }]

/-! # Theorems -/

set_option maxRecDepth 1000000

/-! ## The order of names -/

theorem unitsLe_total : ∀ a b : List Nat, unitsLe a b = true ∨ unitsLe b a = true
  | [], _ => Or.inl (by simp [unitsLe])
  | _ :: _, [] => Or.inr (by simp [unitsLe])
  | a :: as, b :: bs => by
      rcases Nat.lt_trichotomy a b with h | h | h
      · left; simp [unitsLe, h]
      · subst h
        rcases unitsLe_total as bs with h' | h'
        · left; simp [unitsLe, h']
        · right; simp [unitsLe, h']
      · right; simp [unitsLe, h]

theorem unitsLe_trans : ∀ a b c : List Nat,
    unitsLe a b = true → unitsLe b c = true → unitsLe a c = true
  | [], _, _, _, _ => by simp [unitsLe]
  | _ :: _, [], _, h, _ => by simp [unitsLe] at h
  | _ :: _, _ :: _, [], _, h => by simp [unitsLe] at h
  | a :: as, b :: bs, c :: cs, h₁, h₂ => by
      simp only [unitsLe, Bool.or_eq_true, Bool.and_eq_true, decide_eq_true_eq, beq_iff_eq] at *
      rcases h₁ with h₁ | ⟨h₁, h₁'⟩
      · rcases h₂ with h₂ | ⟨h₂, _⟩
        · exact Or.inl (Nat.lt_trans h₁ h₂)
        · exact Or.inl (h₂ ▸ h₁)
      · rcases h₂ with h₂ | ⟨h₂, h₂'⟩
        · exact Or.inl (h₁ ▸ h₂)
        · exact Or.inr ⟨h₁.trans h₂, unitsLe_trans as bs cs h₁' h₂'⟩

instance jsLe.isTotal : IsTotal String jsLe :=
  ⟨fun a b => unitsLe_total (utf16 a) (utf16 b)⟩

instance jsLe.isTrans : IsTrans String jsLe :=
  ⟨fun a b c => unitsLe_trans (utf16 a) (utf16 b) (utf16 c)⟩

theorem sortNames_sorted (names : List String) : (sortNames names).Sorted jsLe :=
  List.sorted_insertionSort jsLe names

theorem sortNames_perm (names : List String) : (sortNames names).Perm names :=
  List.perm_insertionSort jsLe names

theorem mem_sortNames {names : List String} {x : String} : x ∈ sortNames names ↔ x ∈ names :=
  (sortNames_perm names).mem_iff

theorem sortNames_sortedDistinct {names : List String} (h : names.Nodup) :
    SortedDistinct (sortNames names) :=
  ⟨sortNames_sorted names, (sortNames_perm names).nodup_iff.mpr h⟩

theorem sortedDistinct_nil : SortedDistinct [] :=
  ⟨List.sorted_nil, List.nodup_nil⟩

theorem mem_setAdd {set : List String} {x y : String} : y ∈ setAdd set x ↔ y ∈ set ∨ y = x := by
  unfold setAdd
  split
  · constructor
    · exact Or.inl
    · rintro (h | h)
      · exact h
      · subst h; assumption
  · simp

theorem setAdd_nodup {set : List String} (x : String) (h : set.Nodup) : (setAdd set x).Nodup := by
  unfold setAdd
  split
  · exact h
  · rename_i hx
    exact List.Nodup.append h (List.nodup_singleton x) (by
      intro a ha hb
      rw [List.mem_singleton] at hb
      exact hx (hb ▸ ha))

theorem addCreatedBy_nodup {set : List String} (doc : Doc) (h : set.Nodup) :
    (addCreatedBy set doc).Nodup := by
  unfold addCreatedBy
  split
  · split
    · exact setAdd_nodup _ h
    · exact h
  · exact h

theorem foldl_addCreatedBy_nodup (docs : List Doc) :
    ∀ set : List String, set.Nodup → (docs.foldl addCreatedBy set).Nodup := by
  induction docs with
  | nil => intro set h; exact h
  | cons d rest ih => intro set h; exact ih _ (addCreatedBy_nodup d h)

/-! ## Plain objects -/

theorem mem_of_lookup {α : Type} {o : List (String × α)} {k : String} {v : α}
    (h : o.lookup k = some v) : (k, v) ∈ o := by
  induction o with
  | nil => simp at h
  | cons p rest ih =>
      obtain ⟨k', v'⟩ := p
      rw [List.lookup_cons] at h
      by_cases hk : k = k'
      · subst hk
        simp at h
        subst h
        exact List.mem_cons_self _ _
      · have : (k == k') = false := by simpa using hk
        rw [this] at h
        exact List.mem_cons_of_mem _ (ih h)

theorem mem_objSet {α : Type} {o : List (String × α)} {k : String} {v : α} {p : String × α}
    (h : p ∈ objSet o k v) : p ∈ o ∨ p = (k, v) := by
  induction o with
  | nil => simp [objSet] at h; exact Or.inr h
  | cons q rest ih =>
      obtain ⟨k', v'⟩ := q
      unfold objSet at h
      split at h
      · rename_i hk
        rcases List.mem_cons.mp h with h | h
        · right; rw [h, hk]
        · left; exact List.mem_cons_of_mem _ h
      · rcases List.mem_cons.mp h with h | h
        · left; rw [h]; exact List.mem_cons_self _ _
        · rcases ih h with h | h
          · left; exact List.mem_cons_of_mem _ h
          · right; exact h

theorem allValues_objSet {α : Type} {P : α → Prop} {o : List (String × α)} (h : AllValues P o)
    (k : String) {v : α} (hv : P v) : AllValues P (objSet o k v) := by
  intro p hp
  rcases mem_objSet hp with hp | hp
  · exact h p hp
  · rw [hp]; exact hv

theorem allValues_lookup {α : Type} {P : α → Prop} {o : List (String × α)} (h : AllValues P o)
    {k : String} {v : α} (hk : o.lookup k = some v) : P v :=
  h (k, v) (mem_of_lookup hk)

/-! ## The Uploader Aggregator -/

theorem uploaderStep_inv {st st' : UploaderState} {doc : Doc} (h : UploaderInv st)
    (hs : uploaderStep st doc = .ok st') : UploaderInv st' := by
  unfold uploaderStep at hs
  split at hs
  · split at hs
    · cases hs; exact h
    · split at hs
      · rename_i set hset
        cases hs
        exact ⟨allValues_objSet h.1 _ (setAdd_nodup _ (allValues_lookup h.1 hset)), setAdd_nodup _ h.2⟩
      · split at hs
        · cases hs
        · cases hs
          exact ⟨allValues_objSet h.1 _ (setAdd_nodup _ List.nodup_nil), setAdd_nodup _ h.2⟩
  · cases hs; exact h

theorem uploaderLoop_inv (docs : List Doc) :
    ∀ st st' : UploaderState, UploaderInv st → uploaderLoop st docs = .ok st' → UploaderInv st' := by
  induction docs with
  | nil =>
      intro st st' h hs
      simp only [uploaderLoop] at hs
      cases hs
      exact h
  | cons d rest ih =>
      intro st st' h hs
      simp only [uploaderLoop] at hs
      split at hs
      · rename_i st₁ h₁
        exact ih st₁ st' (uploaderStep_inv h h₁) hs
      · cases hs

theorem buildFinalData_sortedDistinct {st : UploaderState} (h : UploaderInv st) :
    AllValues SortedDistinct (buildFinalData st) := by
  unfold buildFinalData
  have base : AllValues SortedDistinct [("all", sortNames st.allUploadersSet)] := by
    intro p hp
    rw [List.mem_singleton] at hp
    rw [hp]
    exact sortNames_sortedDistinct h.2
  generalize ownKeys st.uploaderMapBySubject = keys
  generalize [("all", sortNames st.allUploadersSet)] = finalData at base
  induction keys generalizing finalData with
  | nil => exact base
  | cons k rest ih =>
      rw [List.foldl_cons]
      apply ih
      apply allValues_objSet base
      apply sortNames_sortedDistinct
      cases hk : st.uploaderMapBySubject.lookup k with
      | none => exact List.nodup_nil
      | some v => exact allValues_lookup h.1 hk

theorem serialise_allValues {P : List String → Prop} {o : List (String × List String)}
    (h : AllValues P o) (hnil : P []) : AllValues P (serialise o) := by
  intro p hp
  unfold serialise at hp
  rw [List.mem_map] at hp
  obtain ⟨k, _, rfl⟩ := hp
  cases hk : o.lookup k with
  | none => exact hnil
  | some v => exact allValues_lookup h hk

theorem uploaderLoop_append (before after : List Doc) :
    ∀ st : UploaderState, uploaderLoop st (before ++ after) =
      match uploaderLoop st before with
      | .ok st' => uploaderLoop st' after
      | .error e => .error e := by
  induction before with
  | nil => intro st; rfl
  | cons d rest ih =>
      intro st
      simp only [List.cons_append, uploaderLoop]
      cases uploaderStep st d with
      | ok st' => exact ih st'
      | error e => rfl

theorem uploaderStep_skip (st : UploaderState) {doc : Doc}
    (h : truthy doc.userName = false ∨ truthy doc.abbreviation = false) :
    uploaderStep st doc = .ok st := by
  unfold uploaderStep
  split
  · rename_i userName abbreviation hu ha
    rw [hu, ha] at h
    rcases h with h | h <;> simp [h]
  · rfl

/-! ## The paginated fetcher -/

theorem afterCursor_append (before : List Doc) (d : Doc) (rest : List Doc)
    (h : ∀ x ∈ before, x.id ≠ d.id) : afterCursor (before ++ d :: rest) d.id = some rest := by
  induction before with
  | nil => simp [afterCursor]
  | cons x xs ih =>
      have hx : x.id ≠ d.id := h x (List.mem_cons_self _ _)
      simp only [List.cons_append, afterCursor, if_neg hx]
      exact ih (fun y hy => h y (List.mem_cons_of_mem _ hy))

/-- The page that follows the documents fetched so far is made of the next documents of the
collection. -/
theorem listDocuments_next (collection fetched rest : List Doc)
    (hid : (collection.map Doc.id).Nodup) (hne : ∀ d ∈ collection, d.id ≠ "")
    (h : collection = fetched ++ rest) :
    listDocuments collection 100
        (if truthy (fetched.getLast?.map Doc.id) then fetched.getLast?.map Doc.id else none)
      = .ok (rest.take 100) := by
  rcases List.eq_nil_or_concat fetched with hf | ⟨before, d, hf⟩
  · subst hf
    simp only [List.nil_append] at h
    simp [truthy, listDocuments, h]
  · rw [List.concat_eq_append] at hf
    subst hf
    have hd : d.id ≠ "" := hne d (by rw [h]; simp)
    have ht : truthy (some d.id) = true := by simp [truthy, hd]
    rw [List.getLast?_concat, Option.map_some', if_pos ht]
    have hsplit : collection = before ++ d :: rest := by rw [h]; simp
    have hdistinct : ∀ x ∈ before, x.id ≠ d.id := by
      intro x hx hxd
      rw [hsplit, List.map_append, List.map_cons] at hid
      have := (List.nodup_append.mp hid).2.2
      exact this (List.mem_map_of_mem _ hx) (by rw [hxd]; exact List.mem_cons_self _ _)
    simp only [listDocuments]
    rw [hsplit, afterCursor_append before d rest hdistinct]

/-- The loop of the fetcher on a stable snapshot: from any point reached, enough iterations
return the whole collection after one request per remaining page and one that returns no
record. -/
theorem fetchLoop_snapshot (collection : List Doc) (hid : (collection.map Doc.id).Nodup)
    (hne : ∀ d ∈ collection, d.id ≠ "") :
    ∀ (fuel : Nat) (fetched rest : List Doc) (requests : Nat),
      collection = fetched ++ rest → (rest.length + 99) / 100 + 1 ≤ fuel →
      fetchLoop (listDocuments collection) fuel fetched (fetched.getLast?.map Doc.id) requests
        = some (.ok (collection, requests + ((rest.length + 99) / 100 + 1))) := by
  intro fuel
  induction fuel with
  | zero => intro fetched rest requests _ hfuel; omega
  | succ fuel ih =>
      intro fetched rest requests h hfuel
      unfold fetchLoop
      rw [listDocuments_next collection fetched rest hid hne h]
      cases rest with
      | nil =>
          simp only [List.append_nil] at h
          simp [h]
      | cons r rs =>
          have hpage : (List.take 100 (r :: rs)).length ≠ 0 := by simp
          simp only [if_neg hpage]
          have hlast : ((fetched ++ List.take 100 (r :: rs)).getLast?).map Doc.id
              = ((List.take 100 (r :: rs)).getLast?).map Doc.id := by
            rw [List.getLast?_append_of_ne_nil]
            simp
          rw [← hlast]
          have hsplit : collection = (fetched ++ List.take 100 (r :: rs)) ++ List.drop 100 (r :: rs) := by
            rw [List.append_assoc, List.take_append_drop]; exact h
          have hlen : (List.drop 100 (r :: rs)).length = (r :: rs).length - 100 := List.length_drop _ _
          have hpos : 0 < (r :: rs).length := by simp
          rw [ih _ _ _ hsplit (by rw [hlen]; omega)]
          rw [hlen]
          congr 3
          omega

theorem fetchAllDocuments_snapshot (collection : List Doc) (hid : (collection.map Doc.id).Nodup)
    (hne : ∀ d ∈ collection, d.id ≠ "") (fuel : Nat)
    (hfuel : (collection.length + 99) / 100 + 1 ≤ fuel) :
    fetchAllDocuments (listDocuments collection) fuel
      = some (.ok (collection, (collection.length + 99) / 100 + 1)) := by
  have := fetchLoop_snapshot collection hid hne fuel [] collection 0 (by simp) hfuel
  simpa [fetchAllDocuments] using this

theorem toNat_charOfNat {n : Nat} (h : n < 55296) : (Char.ofNat n).toNat = n := by
  have hv : n.isValidChar := Or.inl h
  simp only [Char.ofNat, dif_pos hv, Char.ofNatAux, Char.toNat]
  simp [UInt32.toNat, UInt32.ofNat']

theorem collection250_length : collection250.length = 250 := by
  simp [collection250]

theorem collection250_ids_nodup : (collection250.map Doc.id).Nodup := by
  unfold collection250
  rw [List.map_map]
  refine List.Nodup.map_on ?_ (List.nodup_range 250)
  intro i hi j hj h
  rw [List.mem_range] at hi hj
  have h' := congrArg String.data h
  simp only [Function.comp, List.cons.injEq, and_true] at h'
  have h1 := congrArg Char.toNat h'.1
  have h2 := congrArg Char.toNat h'.2
  rw [toNat_charOfNat (by omega), toNat_charOfNat (by omega)] at h1 h2
  omega

theorem collection250_ids_nonempty : ∀ d ∈ collection250, d.id ≠ "" := by
  intro d hd h
  unfold collection250 at hd
  rw [List.mem_map] at hd
  obtain ⟨i, _, rfl⟩ := hd
  have h' := congrArg String.data h
  simp at h'

/-! ## The upsert writer -/

theorem Store.get_replace_self {α : Type} (store : Store α) (c i : String) (d : α)
    (h : (store.get c i).isSome) : (store.replace (c, i) d).get c i = some d := by
  induction store with
  | nil => simp [Store.get] at h
  | cons p rest ih =>
      obtain ⟨k, v⟩ := p
      by_cases hk : k = (c, i)
      · simp [Store.replace, Store.get, hk]
      · simp only [Store.get, if_neg hk] at h
        simp [Store.replace, Store.get, hk, ih h]

theorem Store.get_replace_other {α : Type} (store : Store α) (key : String × String) (c i : String)
    (d : α) (h : (c, i) ≠ key) : (store.replace key d).get c i = store.get c i := by
  induction store with
  | nil => rfl
  | cons p rest ih =>
      obtain ⟨k, v⟩ := p
      by_cases hk : k = key
      · have hne : ¬ k = (c, i) := fun h' => h (h' ▸ hk)
        simp only [Store.replace, if_pos hk, Store.get, if_neg hne]
      · by_cases hk' : k = (c, i)
        · simp only [Store.replace, if_neg hk, Store.get, if_pos hk']
        · simp only [Store.replace, if_neg hk, Store.get, if_neg hk', ih]

theorem Store.get_append {α : Type} (store : Store α) (key : String × String) (c i : String)
    (d : α) : (store ++ [(key, d)]).get c i =
      match store.get c i with
      | some v => some v
      | none => if key = (c, i) then some d else none := by
  induction store with
  | nil => simp [Store.get]
  | cons p rest ih =>
      obtain ⟨k, v⟩ := p
      by_cases hk : k = (c, i)
      · simp [Store.get, hk]
      · simp [Store.get, hk, ih]

/-- On the database of the spec an upsert succeeds, leaves the data at the identifier and
changes no other document. -/
theorem upsertDocument_storeDb {α : Type} (store : Store α) (c i : String) (d : α) :
    ∃ s', upsertDocument (storeDb α) store c i d = .ok s' ∧ s'.get c i = some d
      ∧ ∀ c' i', (c', i') ≠ (c, i) → s'.get c' i' = store.get c' i' := by
  cases h : store.get c i with
  | some v =>
      refine ⟨store.replace (c, i) d, ?_, ?_, ?_⟩
      · simp [upsertDocument, storeDb, h]
      · exact Store.get_replace_self store c i d (by rw [h]; rfl)
      · intro c' i' hne
        exact Store.get_replace_other store (c, i) c' i' d hne
  | none =>
      refine ⟨store ++ [((c, i), d)], ?_, ?_, ?_⟩
      · simp [upsertDocument, storeDb, h]
      · rw [Store.get_append, h]; simp
      · intro c' i' hne
        rw [Store.get_append]
        cases store.get c' i' with
        | some v => rfl
        | none => simp [Ne.symm hne]

/-! ## The entry point -/

theorem mem_of_mem_completedBefore {α : Type} {t : Aggregator α} :
    ∀ {tasks : List (Aggregator α)}, t ∈ completedBefore tasks → t ∈ tasks
  | [], h => by simp [completedBefore] at h
  | a :: rest, h => by
      unfold completedBefore at h
      split at h
      · rcases List.mem_cons.mp h with h | h
        · rw [h]; exact List.mem_cons_self _ _
        · exact List.mem_cons_of_mem _ (mem_of_mem_completedBefore h)
      · simp at h

/-- The wait on the database of the spec: the error caught is the one of the first aggregator
that throws, the aggregators that completed before it have their payload in their cache
document, and no other document has changed. -/
theorem awaitAll_storeDb {α : Type} :
    ∀ (tasks : List (Aggregator α)) (store : Store α),
      (tasks.map Aggregator.target).Nodup →
      (awaitAll (storeDb α) store tasks).2 = firstThrown tasks
        ∧ (∀ t ∈ completedBefore tasks, ∀ p, t.result = .ok p →
            (awaitAll (storeDb α) store tasks).1.get t.collectionId t.documentId = some p)
        ∧ (∀ c i, (c, i) ∉ (completedBefore tasks).map Aggregator.target →
            (awaitAll (storeDb α) store tasks).1.get c i = store.get c i)
  | [], store, _ => by simp [awaitAll, firstThrown, completedBefore]
  | a :: rest, store, hnodup => by
      rw [List.map_cons, List.nodup_cons] at hnodup
      cases hres : a.result with
      | error e => simp [awaitAll, Aggregator.run, firstThrown, completedBefore, hres]
      | ok data =>
          obtain ⟨s', hs', hget, hother⟩ :=
            upsertDocument_storeDb store a.collectionId a.documentId data
          obtain ⟨ih₁, ih₂, ih₃⟩ := awaitAll_storeDb rest s' hnodup.2
          have hrun : awaitAll (storeDb α) store (a :: rest) = awaitAll (storeDb α) s' rest := by
            simp [awaitAll, Aggregator.run, hres, hs']
          have hcompleted : completedBefore (a :: rest) = a :: completedBefore rest := by
            simp [completedBefore, hres]
          have hfresh : a.target ∉ (completedBefore rest).map Aggregator.target := by
            intro hmem
            rw [List.mem_map] at hmem
            obtain ⟨t, ht, htarget⟩ := hmem
            exact hnodup.1 (List.mem_map.mpr ⟨t, mem_of_mem_completedBefore ht, htarget⟩)
          rw [hrun, hcompleted]
          refine ⟨by simp [firstThrown, hres, ih₁], ?_, ?_⟩
          · intro t ht p hp
            rcases List.mem_cons.mp ht with ht | ht
            · subst ht
              rw [hres] at hp
              cases hp
              rw [ih₃ _ _ hfresh]
              exact hget
            · exact ih₂ t ht p hp
          · intro c i hci
            rw [List.map_cons, List.mem_cons, not_or] at hci
            rw [ih₃ c i hci.2]
            exact hother c i hci.1

/-! ## The Teacher Stats Aggregator -/

instance totalGe.isTotal : IsTotal TeacherEntry totalGe :=
  ⟨fun a b => Nat.le_total b.total.toNat a.total.toNat⟩

instance totalGe.isTrans : IsTrans TeacherEntry totalGe :=
  ⟨fun _ _ _ hab hbc => Nat.le_trans hbc hab⟩

theorem sortByTotal_of_numbers {entries : List TeacherEntry}
    (h : entries.all (fun e => e.total.isNumber) = true) :
    sortByTotal entries = entries.insertionSort totalGe := by
  unfold sortByTotal
  rw [if_pos h]

/-! ## Count tables without inherited names -/

theorem lookup_cons_ite {α : Type} (k k₀ : String) (v₀ : α) (rest : List (String × α)) :
    List.lookup k ((k₀, v₀) :: rest) = if k = k₀ then some v₀ else List.lookup k rest := by
  rw [List.lookup_cons]
  by_cases h : k = k₀
  · simp [h]
  · have hb : (k == k₀) = false := by simpa using h
    simp [hb, h]

theorem lookup_objSet {α : Type} (o : List (String × α)) (k k' : String) (v : α) :
    (objSet o k v).lookup k' = if k' = k then some v else o.lookup k' := by
  induction o with
  | nil => simp only [objSet, lookup_cons_ite, List.lookup_nil]
  | cons p rest ih =>
      obtain ⟨k₀, v₀⟩ := p
      by_cases h₀ : k₀ = k
      · subst h₀
        simp only [objSet, if_true, lookup_cons_ite]
        by_cases h : k' = k₀ <;> simp [h]
      · simp only [objSet, if_neg h₀, lookup_cons_ite, ih]
        by_cases h : k' = k₀
        · subst h
          simp [h₀]
        · simp [h]

theorem mem_keys_objSet {α : Type} (o : List (String × α)) (k k' : String) (v : α) :
    k' ∈ (objSet o k v).map Prod.fst ↔ k' ∈ o.map Prod.fst ∨ k' = k := by
  induction o with
  | nil => simp [objSet]
  | cons p rest ih =>
      obtain ⟨k₀, v₀⟩ := p
      by_cases h₀ : k₀ = k
      · subst h₀
        simp only [objSet, if_true, List.map_cons, List.mem_cons]
        tauto
      · simp only [objSet, if_neg h₀, List.map_cons, List.mem_cons, ih]
        tauto

theorem keys_objSet_nodup {α : Type} (o : List (String × α)) (k : String) (v : α)
    (h : (o.map Prod.fst).Nodup) : ((objSet o k v).map Prod.fst).Nodup := by
  induction o with
  | nil => simp [objSet]
  | cons p rest ih =>
      obtain ⟨k₀, v₀⟩ := p
      rw [List.map_cons, List.nodup_cons] at h
      by_cases h₀ : k₀ = k
      · subst h₀
        simp only [objSet, if_true, List.map_cons, List.nodup_cons]
        exact h
      · simp only [objSet, if_neg h₀, List.map_cons, List.nodup_cons]
        refine ⟨?_, ih h.2⟩
        rw [mem_keys_objSet]
        rintro (hmem | heq)
        · exact h.1 hmem
        · exact h₀ heq

theorem lookup_isSome_iff_mem_keys {α : Type} (o : List (String × α)) (k : String) :
    (o.lookup k).isSome ↔ k ∈ o.map Prod.fst := by
  induction o with
  | nil => simp
  | cons p rest ih =>
      obtain ⟨k₀, v₀⟩ := p
      by_cases h : k = k₀
      · subst h
        simp [List.lookup]
      · have hb : (k == k₀) = false := by simpa using h
        simp [List.lookup, hb, ih, h]

theorem numericTable_objSet {table : List (String × JSValue)} (h : NumericTable table)
    (k : String) {n : Nat} (hn : 0 < n) : NumericTable (objSet table k (.number n)) := by
  refine ⟨keys_objSet_nodup table k _ h.1, ?_⟩
  intro p hp
  rcases mem_objSet hp with hp | hp
  · exact h.2 p hp
  · exact ⟨n, hn, by rw [hp]⟩

theorem numericTable_lookup {table : List (String × JSValue)} (h : NumericTable table)
    {k : String} {v : JSValue} (hk : table.lookup k = some v) : ∃ n, 0 < n ∧ v = .number n :=
  h.2 (k, v) (mem_of_lookup hk)

theorem getOrZero_numeric {table : List (String × JSValue)} (h : NumericTable table)
    {name : String} (hname : name ∉ inheritedKeys) :
    getOrZero table name = .number (cellCount table name) := by
  unfold getOrZero cellCount
  cases hk : table.lookup name with
  | some v =>
      obtain ⟨n, _, rfl⟩ := numericTable_lookup h hk
      rfl
  | none =>
      simp only [inheritedKeys, List.mem_cons, not_or] at hname
      simp [hname.1, hname.2, JSValue.toNat]

theorem cellCount_pos_iff {table : List (String × JSValue)} (h : NumericTable table)
    (name : String) : 0 < cellCount table name ↔ name ∈ table.map Prod.fst := by
  rw [← lookup_isSome_iff_mem_keys]
  unfold cellCount
  cases hk : table.lookup name with
  | some v =>
      obtain ⟨n, hn, rfl⟩ := numericTable_lookup h hk
      simpa [JSValue.toNat] using hn
  | none => simp

theorem countStep_clean {table : List (String × JSValue)} (h : NumericTable table)
    (key : Doc → Option String) (doc : Doc)
    (hclean : ∀ name, key doc = some name → name ∉ inheritedKeys) :
    NumericTable (countStep key table doc)
      ∧ ∀ name, cellCount (countStep key table doc) name
          = cellCount table name + (if name ≠ "" ∧ key doc = some name then 1 else 0) := by
  unfold countStep
  cases hk : key doc with
  | none => exact ⟨h, fun name => by simp⟩
  | some creator =>
      have hc := hclean creator hk
      by_cases hempty : creator = ""
      · subst hempty
        refine ⟨by simpa [truthy] using h, ?_⟩
        intro name
        by_cases hname : name = ""
        · simp [truthy, hname]
        · have : ¬ ("" = name) := fun h' => hname h'.symm
          simp [truthy, this]
      · have hproto : creator ≠ protoAccessor := by
          intro h'
          exact hc (by rw [h']; exact List.mem_cons_self _ _)
        have ht : truthy (some creator) = true := by simp [truthy, hempty]
        simp only [ht, if_true, if_neg hproto]
        rw [getOrZero_numeric h hc]
        refine ⟨numericTable_objSet h creator (Nat.succ_pos _), ?_⟩
        intro name
        unfold cellCount
        rw [lookup_objSet]
        by_cases hname : name = creator
        · subst hname
          simp [JSValue.toNat, JSValue.add, cellCount, hempty]
        · have : ¬ (creator = name) := fun h' => hname h'.symm
          simp [hname, this]

theorem countCreators_fold (key : Doc → Option String) :
    ∀ (documents : List Doc) (table : List (String × JSValue)),
      NumericTable table → CleanCreators documents key →
      NumericTable (documents.foldl (countStep key) table)
        ∧ ∀ name, cellCount (documents.foldl (countStep key) table) name
            = cellCount table name + (if name = "" then 0 else occurrences documents key name)
  | [], table, h, _ => ⟨h, fun name => by simp [occurrences]⟩
  | d :: rest, table, h, hclean => by
      obtain ⟨h₁, hcount₁⟩ :=
        countStep_clean h key d (fun name hk => hclean d (List.mem_cons_self _ _) name hk)
      obtain ⟨h₂, hcount₂⟩ := countCreators_fold key rest (countStep key table d) h₁
        (fun x hx => hclean x (List.mem_cons_of_mem _ hx))
      refine ⟨h₂, ?_⟩
      intro name
      rw [List.foldl_cons, hcount₂ name, hcount₁ name]
      unfold occurrences
      rw [List.countP_cons]
      by_cases hname : name = ""
      · simp [hname]
      · by_cases hk : key d = some name
        · simp [hk, hname]; omega
        · simp [hk, hname]

/-- Without inherited names, the table of `countCreators` holds for each non-empty name the
number of documents that carry it, and has a cell exactly for the names that occur. -/
theorem countCreators_clean (documents : List Doc) (key : Doc → Option String)
    (hclean : CleanCreators documents key) :
    NumericTable (countCreators documents key)
      ∧ ∀ name, cellCount (countCreators documents key) name
          = if name = "" then 0 else occurrences documents key name := by
  obtain ⟨h, hcount⟩ := countCreators_fold key documents []
    ⟨List.nodup_nil, fun p hp => by simp at hp⟩ hclean
  refine ⟨h, ?_⟩
  intro name
  have := hcount name
  simpa [countCreators, cellCount] using this

theorem orderKeys_perm (keys : List String) : (orderKeys keys).Perm keys := by
  unfold orderKeys
  have h₁ := List.perm_insertionSort (fun a b => indexValue a ≤ indexValue b)
    (keys.filter (fun k => (arrayIndex k).isSome))
  have h₂ : keys.filter (fun k => (arrayIndex k).isNone)
      = keys.filter (fun k => !(arrayIndex k).isSome) := by
    congr 1
    funext k
    cases arrayIndex k <;> rfl
  rw [h₂]
  exact (h₁.append_right _).trans (List.filter_append_perm _ keys)

theorem mem_ownKeys {α : Type} (o : List (String × α)) (k : String) :
    k ∈ ownKeys o ↔ k ∈ o.map Prod.fst :=
  (orderKeys_perm _).mem_iff

theorem ownKeys_nodup {α : Type} (o : List (String × α)) (h : (o.map Prod.fst).Nodup) :
    (ownKeys o).Nodup :=
  (orderKeys_perm _).nodup_iff.mpr h

theorem foldl_setAdd (names : List String) :
    ∀ set : List String, set.Nodup →
      (names.foldl setAdd set).Nodup ∧ ∀ x, x ∈ names.foldl setAdd set ↔ x ∈ set ∨ x ∈ names := by
  induction names with
  | nil => intro set h; exact ⟨h, fun x => by simp⟩
  | cons n rest ih =>
      intro set h
      obtain ⟨h₁, h₂⟩ := ih (setAdd set n) (setAdd_nodup n h)
      refine ⟨h₁, ?_⟩
      intro x
      rw [List.foldl_cons, h₂ x, mem_setAdd, List.mem_cons]
      tauto

theorem exists_of_occurrences_pos {documents : List Doc} {key : Doc → Option String}
    {name : String} (h : 0 < occurrences documents key name) :
    ∃ d ∈ documents, key d = some name := by
  unfold occurrences at h
  rw [List.countP_pos_iff] at h
  obtain ⟨d, hd, hk⟩ := h
  exact ⟨d, hd, by simpa using hk⟩

/-- What C4 and C10 say holds when no creator is named like a property inherited from
`Object.prototype`: the array has exactly one entry for each non-empty creator name that occurs
in one of the three lists, the entry holds the numbers of note, form and YouTube documents of
that creator and their sum, and the entries are ordered by descending total. -/
theorem stats_counts_without_inherited_names (noteDocs formDocs youtubeDocs : List Doc)
    (hn : CleanCreators noteDocs Doc.userName) (hf : CleanCreators formDocs Doc.createdBy)
    (hy : CleanCreators youtubeDocs Doc.createdBy) :
    ((updateTeacherStats noteDocs formDocs youtubeDocs).map TeacherEntry.name).Nodup
      ∧ (∀ name, name ∈ (updateTeacherStats noteDocs formDocs youtubeDocs).map TeacherEntry.name ↔
          name ≠ "" ∧ (0 < occurrences noteDocs Doc.userName name
            ∨ 0 < occurrences formDocs Doc.createdBy name
            ∨ 0 < occurrences youtubeDocs Doc.createdBy name))
      ∧ (∀ e ∈ updateTeacherStats noteDocs formDocs youtubeDocs,
          e.notes = .number (occurrences noteDocs Doc.userName e.name)
            ∧ e.forms = .number (occurrences formDocs Doc.createdBy e.name)
            ∧ e.youtube = .number (occurrences youtubeDocs Doc.createdBy e.name)
            ∧ e.total = .number (occurrences noteDocs Doc.userName e.name
                + occurrences formDocs Doc.createdBy e.name
                + occurrences youtubeDocs Doc.createdBy e.name))
      ∧ (updateTeacherStats noteDocs formDocs youtubeDocs).Sorted totalGe := by
  obtain ⟨tn, cn⟩ := countCreators_clean noteDocs Doc.userName hn
  obtain ⟨tf, cf⟩ := countCreators_clean formDocs Doc.createdBy hf
  obtain ⟨ty, cy⟩ := countCreators_clean youtubeDocs Doc.createdBy hy
  obtain ⟨hnodup, hmem⟩ := foldl_setAdd
    (ownKeys (countCreators noteDocs Doc.userName) ++ ownKeys (countCreators formDocs Doc.createdBy)
      ++ ownKeys (countCreators youtubeDocs Doc.createdBy)) [] List.nodup_nil
  generalize hnames : (ownKeys (countCreators noteDocs Doc.userName)
      ++ ownKeys (countCreators formDocs Doc.createdBy)
      ++ ownKeys (countCreators youtubeDocs Doc.createdBy)).foldl setAdd [] = names at hnodup hmem
  -- the names of the union are non-empty, occur in a list and are not inherited
  have hkey : ∀ name, name ∈ names ↔ name ≠ "" ∧
      (0 < occurrences noteDocs Doc.userName name ∨ 0 < occurrences formDocs Doc.createdBy name
        ∨ 0 < occurrences youtubeDocs Doc.createdBy name) := by
    intro name
    rw [hmem name, List.mem_append, List.mem_append, mem_ownKeys, mem_ownKeys, mem_ownKeys,
      ← cellCount_pos_iff tn, ← cellCount_pos_iff tf, ← cellCount_pos_iff ty, cn, cf, cy]
    by_cases hname : name = ""
    · simp [hname]
    · simp [hname, or_assoc]
  have hclean : ∀ name ∈ names, name ≠ "" ∧ name ∉ inheritedKeys := by
    intro name hname
    have h := (hkey name).mp hname
    refine ⟨h.1, ?_⟩
    rcases h.2 with h' | h' | h'
    · obtain ⟨d, hd, hk⟩ := exists_of_occurrences_pos h'
      exact hn d hd name hk
    · obtain ⟨d, hd, hk⟩ := exists_of_occurrences_pos h'
      exact hf d hd name hk
    · obtain ⟨d, hd, hk⟩ := exists_of_occurrences_pos h'
      exact hy d hd name hk
  -- each entry holds the three counts
  have hentry : ∀ name ∈ names,
      teacherEntry (countCreators noteDocs Doc.userName) (countCreators formDocs Doc.createdBy)
          (countCreators youtubeDocs Doc.createdBy) name
        = { name := name
            notes := .number (occurrences noteDocs Doc.userName name)
            forms := .number (occurrences formDocs Doc.createdBy name)
            youtube := .number (occurrences youtubeDocs Doc.createdBy name)
            total := .number (occurrences noteDocs Doc.userName name
              + occurrences formDocs Doc.createdBy name
              + occurrences youtubeDocs Doc.createdBy name) } := by
    intro name hname
    obtain ⟨hne, hni⟩ := hclean name hname
    unfold teacherEntry
    rw [getOrZero_numeric tn hni, getOrZero_numeric tf hni, getOrZero_numeric ty hni, cn, cf, cy]
    simp [hne, JSValue.add]
  generalize hentries : names.map (teacherEntry (countCreators noteDocs Doc.userName)
      (countCreators formDocs Doc.createdBy) (countCreators youtubeDocs Doc.createdBy)) = entries
  have hall : entries.all (fun e => e.total.isNumber) = true := by
    rw [List.all_eq_true]
    intro e he
    rw [← hentries, List.mem_map] at he
    obtain ⟨name, hname, rfl⟩ := he
    rw [hentry name hname]
    rfl
  have hperm := List.perm_insertionSort totalGe entries
  have hnamesEq : entries.map TeacherEntry.name = names := by
    rw [← hentries, List.map_map]
    conv_rhs => rw [← List.map_id names]
    apply List.map_congr_left
    intro name _
    rfl
  have hpayload : updateTeacherStats noteDocs formDocs youtubeDocs
      = entries.insertionSort totalGe := by
    unfold updateTeacherStats
    simp only [hnames, hentries]
    exact sortByTotal_of_numbers hall
  rw [hpayload]
  refine ⟨?_, ?_, ?_, List.sorted_insertionSort totalGe entries⟩
  · rw [(hperm.map TeacherEntry.name).nodup_iff, hnamesEq]
    exact hnodup
  · intro name
    rw [(hperm.map TeacherEntry.name).mem_iff, hnamesEq]
    exact hkey name
  · intro e he
    have he' := hperm.mem_iff.mp he
    rw [← hentries, List.mem_map] at he'
    obtain ⟨name, hname, rfl⟩ := he'
    rw [hentry name hname]
    exact ⟨rfl, rfl, rfl, rfl⟩

/-- The example on teacher statistics: note counts `{X:2}`, form counts `{X:1,Y:3}` and YouTube
counts `{Y:1}` give
`[{name:"Y",notes:0,forms:3,youtube:1,total:4},{name:"X",notes:2,forms:1,youtube:0,total:3}]`. -/
theorem stats_example :
    updateTeacherStats exampleNoteDocs exampleFormDocs exampleYoutubeDocs = exampleStats := by
  decide

/-! ## The Uploader Aggregator without colliding subjects -/

theorem qualifies_iff_of_fields {d : Doc} {u₀ a₀ : String} (hu : d.userName = some u₀)
    (ha : d.abbreviation = some a₀) (hu₀ : u₀ ≠ "") (ha₀ : a₀ ≠ "") (u a : String) :
    Qualifies d u a ↔ u = u₀ ∧ a = a₀ := by
  unfold Qualifies
  rw [hu, ha]
  constructor
  · rintro ⟨h₁, h₂, _, _⟩
    exact ⟨(Option.some.inj h₁).symm, (Option.some.inj h₂).symm⟩
  · rintro ⟨rfl, rfl⟩
    exact ⟨rfl, rfl, hu₀, ha₀⟩

theorem not_qualifies_of_skip {d : Doc}
    (h : truthy d.userName = false ∨ truthy d.abbreviation = false) (u a : String) :
    ¬ Qualifies d u a := by
  rintro ⟨hu, ha, hu', ha'⟩
  rw [hu, ha] at h
  rcases h with h | h
  · simp [truthy, hu'] at h
  · simp [truthy, ha'] at h

theorem exists_mem_concat {P : Doc → Prop} (seen : List Doc) (d : Doc) :
    (∃ x ∈ seen ++ [d], P x) ↔ (∃ x ∈ seen, P x) ∨ P d := by
  constructor
  · rintro ⟨x, hx, hp⟩
    rcases List.mem_append.mp hx with hx | hx
    · exact Or.inl ⟨x, hx, hp⟩
    · rw [List.mem_singleton] at hx
      exact Or.inr (hx ▸ hp)
  · rintro (⟨x, hx, hp⟩ | hp)
    · exact ⟨x, List.mem_append_left _ hx, hp⟩
    · exact ⟨d, List.mem_append_right _ (List.mem_singleton_self d), hp⟩

theorem uploaderStep_spec {st : UploaderState} {seen : List Doc} (h : UploaderSpec st seen)
    (d : Doc) (hclean : ∀ a, d.abbreviation = some a → a ∉ inheritedKeys) :
    ∃ st', uploaderStep st d = .ok st' ∧ UploaderSpec st' (seen ++ [d]) := by
  obtain ⟨hkeys, hsets, hhas, hall, hallmem⟩ := h
  by_cases hskip : truthy d.userName = false ∨ truthy d.abbreviation = false
  · refine ⟨st, uploaderStep_skip st hskip, hkeys, ?_, ?_, hall, ?_⟩
    · intro a set hlook
      obtain ⟨h₁, h₂, h₃⟩ := hsets a set hlook
      refine ⟨h₁, h₂, fun u => ?_⟩
      rw [h₃ u, exists_mem_concat]
      simp [not_qualifies_of_skip hskip]
    · intro a ha
      apply hhas a
      rw [exists_mem_concat] at ha
      rcases ha with ha | ⟨u, hu⟩
      · exact ha
      · exact absurd hu (not_qualifies_of_skip hskip u a)
    · intro u
      rw [hallmem u, exists_mem_concat]
      simp [not_qualifies_of_skip hskip]
  · rw [not_or] at hskip
    obtain ⟨hu, ha⟩ := hskip
    cases hun : d.userName with
    | none => simp [hun, truthy] at hu
    | some u₀ =>
      cases han : d.abbreviation with
      | none => simp [han, truthy] at ha
      | some a₀ =>
        have hu₀ : u₀ ≠ "" := by
          intro h'; simp [hun, truthy, h'] at hu
        have ha₀ : a₀ ≠ "" := by
          intro h'; simp [han, truthy, h'] at ha
        have hq := qualifies_iff_of_fields hun han hu₀ ha₀
        have hnotInherited : a₀ ∉ protoAccessor :: objectPrototypeFunctions := hclean a₀ han
        have htu : truthy (some u₀) = true := by simp [truthy, hu₀]
        have hta : truthy (some a₀) = true := by simp [truthy, ha₀]
        -- the set the record is added to
        obtain ⟨set, hnd, hsetmem, hstep⟩ : ∃ set : List String, set.Nodup
            ∧ (∀ u, u ∈ set ↔ ∃ x ∈ seen, Qualifies x u a₀)
            ∧ uploaderStep st d = .ok
                { uploaderMapBySubject := objSet st.uploaderMapBySubject a₀ (setAdd set u₀)
                  allUploadersSet := setAdd st.allUploadersSet u₀ } := by
          cases hlook : st.uploaderMapBySubject.lookup a₀ with
          | some set =>
              obtain ⟨h₁, _, h₃⟩ := hsets a₀ set hlook
              refine ⟨set, h₁, h₃, ?_⟩
              simp [uploaderStep, hun, han, htu, hta, hlook]
          | none =>
              refine ⟨[], List.nodup_nil, ?_, ?_⟩
              · intro u
                constructor
                · intro h'; simp at h'
                · rintro ⟨x, hx, hxq⟩
                  have := hhas a₀ ⟨x, hx, u, hxq⟩
                  rw [hlook] at this
                  simp at this
              · simp [uploaderStep, hun, han, htu, hta, hlook, hnotInherited]
        refine ⟨_, hstep, keys_objSet_nodup _ _ _ hkeys, ?_, ?_, setAdd_nodup _ hall, ?_⟩
        · intro a set' hlook
          rw [lookup_objSet] at hlook
          by_cases haa : a = a₀
          · subst haa
            rw [if_pos rfl] at hlook
            cases hlook
            refine ⟨setAdd_nodup _ hnd, ?_, fun u => ?_⟩
            · intro hnil
              have : u₀ ∈ setAdd set u₀ := mem_setAdd.mpr (Or.inr rfl)
              rw [hnil] at this
              simp at this
            · rw [mem_setAdd, hsetmem u, exists_mem_concat, hq]
              simp
          · rw [if_neg haa] at hlook
            obtain ⟨h₁, h₂, h₃⟩ := hsets a set' hlook
            refine ⟨h₁, h₂, fun u => ?_⟩
            rw [h₃ u, exists_mem_concat, hq]
            simp [haa]
        · intro a hex
          rw [lookup_objSet]
          by_cases haa : a = a₀
          · simp [haa]
          · rw [if_neg haa]
            apply hhas a
            rw [exists_mem_concat] at hex
            rcases hex with hex | ⟨u, hqd⟩
            · exact hex
            · exact absurd ((hq u a).mp hqd).2 haa
        · intro u
          rw [mem_setAdd, hallmem u, exists_mem_concat]
          constructor
          · rintro (h' | h')
            · exact Or.inl h'
            · exact Or.inr ⟨a₀, (hq u a₀).mpr ⟨h', rfl⟩⟩
          · rintro (h' | ⟨a, h'⟩)
            · exact Or.inl h'
            · exact Or.inr ((hq u a).mp h').1

theorem uploaderLoop_spec (docs : List Doc) :
    ∀ (st : UploaderState) (seen : List Doc), UploaderSpec st seen →
      (∀ d ∈ docs, ∀ a, d.abbreviation = some a → a ∉ inheritedKeys) →
      ∃ st', uploaderLoop st docs = .ok st' ∧ UploaderSpec st' (seen ++ docs) := by
  induction docs with
  | nil =>
      intro st seen h _
      exact ⟨st, rfl, by simpa using h⟩
  | cons d rest ih =>
      intro st seen h hclean
      obtain ⟨st₁, hstep, h₁⟩ := uploaderStep_spec h d (hclean d (List.mem_cons_self _ _))
      obtain ⟨st', hloop, h'⟩ := ih st₁ (seen ++ [d]) h₁
        (fun x hx => hclean x (List.mem_cons_of_mem _ hx))
      refine ⟨st', ?_, ?_⟩
      · simp only [uploaderLoop, hstep]
        exact hloop
      · simpa using h'

theorem foldl_objSet {α : Type} (g : String → α) (keys : List String) :
    ∀ o : List (String × α), (o.map Prod.fst).Nodup →
      ((keys.foldl (fun fd k => objSet fd k (g k)) o).map Prod.fst).Nodup
        ∧ (∀ k, k ∈ (keys.foldl (fun fd k => objSet fd k (g k)) o).map Prod.fst
            ↔ k ∈ o.map Prod.fst ∨ k ∈ keys)
        ∧ ∀ k, (keys.foldl (fun fd k => objSet fd k (g k)) o).lookup k
            = if k ∈ keys then some (g k) else o.lookup k := by
  induction keys with
  | nil => intro o h; exact ⟨h, fun k => by simp, fun k => by simp⟩
  | cons k₀ rest ih =>
      intro o h
      obtain ⟨h₁, h₂, h₃⟩ := ih (objSet o k₀ (g k₀)) (keys_objSet_nodup o k₀ _ h)
      refine ⟨h₁, ?_, ?_⟩
      · intro k
        rw [List.foldl_cons, h₂ k, mem_keys_objSet, List.mem_cons]
        tauto
      · intro k
        rw [List.foldl_cons, h₃ k, lookup_objSet]
        by_cases hk : k ∈ rest
        · simp [hk]
        · by_cases hk₀ : k = k₀
          · subst hk₀
            simp
          · simp [hk, hk₀]

theorem mem_serialise {o : List (String × List String)} {key : String} {names : List String} :
    (key, names) ∈ serialise o ↔ key ∈ o.map Prod.fst ∧ names = (o.lookup key).getD [] := by
  unfold serialise
  rw [List.mem_map]
  constructor
  · rintro ⟨k, hk, heq⟩
    rw [Prod.mk.injEq] at heq
    obtain ⟨h₁, h₂⟩ := heq
    subst h₁
    exact ⟨(mem_ownKeys o k).mp hk, h₂.symm⟩
  · rintro ⟨hk, rfl⟩
    exact ⟨key, (mem_ownKeys o key).mpr hk, rfl⟩

theorem serialise_keys (o : List (String × List String)) :
    (serialise o).map Prod.fst = ownKeys o := by
  unfold serialise
  rw [List.map_map]
  conv_rhs => rw [← List.map_id (ownKeys o)]
  apply List.map_congr_left
  intro k _
  rfl

/-- What C9 says holds when no subject is named `all` or like a property inherited from
`Object.prototype`: the payload is produced, its keys are `all` and the subjects observed on
records with both fields, each once; `all` holds the sorted distinct names of all such records;
each subject holds the sorted distinct names of the records of the subject, at least one. -/
theorem uploader_payload_without_collisions (noteDocs : List Doc) (hclean : CleanSubjects noteDocs) :
    ∃ payload, updateUploaderCache noteDocs = .ok payload
      ∧ (payload.map Prod.fst).Nodup
      ∧ (∀ key, key ∈ payload.map Prod.fst ↔
          key = "all" ∨ ∃ d ∈ noteDocs, ∃ u, Qualifies d u key)
      ∧ (∀ names, ("all", names) ∈ payload →
          SortedDistinct names ∧ ∀ u, u ∈ names ↔ ∃ d ∈ noteDocs, ∃ a, Qualifies d u a)
      ∧ ∀ key names, (key, names) ∈ payload → key ≠ "all" →
          SortedDistinct names ∧ names ≠ [] ∧ ∀ u, u ∈ names ↔ ∃ d ∈ noteDocs, Qualifies d u key := by
  have hinit : UploaderSpec { uploaderMapBySubject := [], allUploadersSet := [] } [] := by
    refine ⟨List.nodup_nil, ?_, ?_, List.nodup_nil, ?_⟩
    · intro a set h; simp at h
    · rintro a ⟨d, hd, _⟩; simp at hd
    · intro u; simp
  obtain ⟨st, hloop, hkeys, hsets, hhas, hall, hallmem⟩ :=
    uploaderLoop_spec noteDocs _ [] hinit (fun d hd a ha => (hclean d hd a ha).1)
  rw [List.nil_append] at hsets hhas hallmem
  -- the keys of the map are the subjects observed, none of them is `all`
  have hkey : ∀ a, a ∈ st.uploaderMapBySubject.map Prod.fst ↔ ∃ d ∈ noteDocs, ∃ u, Qualifies d u a := by
    intro a
    rw [← lookup_isSome_iff_mem_keys]
    constructor
    · intro h
      cases hlook : st.uploaderMapBySubject.lookup a with
      | none => rw [hlook] at h; simp at h
      | some set =>
          obtain ⟨_, hne, hmem⟩ := hsets a set hlook
          obtain ⟨u, hu⟩ := List.exists_mem_of_ne_nil set hne
          obtain ⟨d, hd, hq⟩ := (hmem u).mp hu
          exact ⟨d, hd, u, hq⟩
    · exact hhas a
  have hnotAll : "all" ∉ st.uploaderMapBySubject.map Prod.fst := by
    intro h
    obtain ⟨d, hd, u, hq⟩ := (hkey "all").mp h
    exact (hclean d hd "all" hq.2.1).2 rfl
  obtain ⟨f₁, f₂, f₃⟩ := foldl_objSet
    (fun subject => sortNames ((st.uploaderMapBySubject.lookup subject).getD []))
    (ownKeys st.uploaderMapBySubject) [("all", sortNames st.allUploadersSet)]
    (by simp)
  have hfinal : buildFinalData st = (ownKeys st.uploaderMapBySubject).foldl
      (fun fd k => objSet fd k (sortNames ((st.uploaderMapBySubject.lookup k).getD [])))
      [("all", sortNames st.allUploadersSet)] := rfl
  rw [← hfinal] at f₁ f₂ f₃
  have hfkeys : ∀ k, k ∈ (buildFinalData st).map Prod.fst ↔
      k = "all" ∨ ∃ d ∈ noteDocs, ∃ u, Qualifies d u k := by
    intro k
    rw [f₂ k, mem_ownKeys, hkey k]
    simp
  refine ⟨serialise (buildFinalData st), ?_, ?_, ?_, ?_, ?_⟩
  · simp [updateUploaderCache, hloop]
  · rw [serialise_keys]
    exact ownKeys_nodup _ f₁
  · intro key
    rw [serialise_keys, mem_ownKeys]
    exact hfkeys key
  · intro names hmem
    obtain ⟨_, rfl⟩ := mem_serialise.mp hmem
    rw [f₃ "all", if_neg (fun h => hnotAll ((mem_ownKeys _ _).mp h))]
    simp only [lookup_cons_ite, if_true, Option.getD_some]
    refine ⟨sortNames_sortedDistinct hall, fun u => ?_⟩
    rw [mem_sortNames, hallmem u]
  · intro key names hmem hne
    obtain ⟨hk, rfl⟩ := mem_serialise.mp hmem
    have hk' : key ∈ st.uploaderMapBySubject.map Prod.fst := by
      rcases (f₂ key).mp hk with h | h
      · simp at h
        exact absurd h hne
      · exact (mem_ownKeys _ _).mp h
    rw [f₃ key, if_pos ((mem_ownKeys _ _).mpr hk')]
    simp only [Option.getD_some]
    cases hlook : st.uploaderMapBySubject.lookup key with
    | none =>
        have := (lookup_isSome_iff_mem_keys _ key).mpr hk'
        rw [hlook] at this
        simp at this
    | some set =>
        obtain ⟨hnd, hnonempty, hmem'⟩ := hsets key set hlook
        simp only [Option.getD_some]
        refine ⟨sortNames_sortedDistinct hnd, ?_, fun u => ?_⟩
        · intro hnil
          obtain ⟨u, hu⟩ := List.exists_mem_of_ne_nil set hnonempty
          have : u ∈ sortNames set := mem_sortNames.mpr hu
          rw [hnil] at this
          simp at this
        · rw [mem_sortNames, hmem' u]

/-- The Uploader Aggregator produces a payload whenever no subject is named like a property
inherited from `Object.prototype`. -/
theorem updateUploaderCache_produces (noteDocs : List Doc) (hclean : NoInheritedSubject noteDocs) :
    ∃ payload, updateUploaderCache noteDocs = .ok payload := by
  have hinit : UploaderSpec { uploaderMapBySubject := [], allUploadersSet := [] } [] := by
    refine ⟨List.nodup_nil, ?_, ?_, List.nodup_nil, ?_⟩
    · intro a set h; simp at h
    · rintro a ⟨d, hd, _⟩; simp at hd
    · intro u; simp
  obtain ⟨st, hloop, _⟩ := uploaderLoop_spec noteDocs _ [] hinit hclean
  exact ⟨serialise (buildFinalData st), by simp [updateUploaderCache, hloop]⟩

/-! ## The claims -/

/-- C1. Every list of names the aggregators write is ascending in the order of the code units
and holds no name twice: the list `uploaders` of the Links Aggregator on any two fetched
lists, and every list (the one at `all` and the one of each subject) of every payload the
Uploader Aggregator produces on any fetched notes; it produces one whenever no subject is named
like a property inherited from `Object.prototype`. -/
theorem names_sorted_distinct (youtubeDocs formDocs noteDocs : List Doc) :
    ((updateLinksCache youtubeDocs formDocs).uploaders.Sorted jsLe
        ∧ (updateLinksCache youtubeDocs formDocs).uploaders.Nodup)
      ∧ (∀ payload, updateUploaderCache noteDocs = .ok payload →
          ∀ key names, (key, names) ∈ payload → names.Sorted jsLe ∧ names.Nodup)
      ∧ (NoInheritedSubject noteDocs → ∃ payload, updateUploaderCache noteDocs = .ok payload) := by
  refine ⟨sortNames_sortedDistinct
    (foldl_addCreatedBy_nodup formDocs _ (foldl_addCreatedBy_nodup youtubeDocs _ List.nodup_nil)),
    ?_, updateUploaderCache_produces noteDocs⟩
  intro payload h key names hmem
  unfold updateUploaderCache at h
  split at h
  · rename_i st hst
    cases h
    have inv : UploaderInv st :=
      uploaderLoop_inv noteDocs _ st ⟨fun p hp => by simp at hp, List.nodup_nil⟩ hst
    exact serialise_allValues (buildFinalData_sortedDistinct inv) sortedDistinct_nil _ hmem
  · cases h

theorem names_sorted_distinct_witness :
    (["A"].Sorted jsLe ∧ ["A"].Nodup)
      ∧ ∃ payload, updateUploaderCache exampleNotes = .ok payload :=
  ⟨(names_sorted_distinct [] [] exampleNotes).2.1 [("all", ["A"]), ("M1", ["A"]), ("M2", ["A"])]
      (by decide) "all" ["A"] (by decide),
   (names_sorted_distinct [] [] exampleNotes).2.2 (by decide)⟩

/-- C2 as stated fails: on the example records the payload is not
`{all:["A","B"], M1:["A"], M2:["A"]}`. -/
theorem example_payload_not_as_stated :
    updateUploaderCache exampleNotes ≠ .ok [("all", ["A", "B"]), ("M1", ["A"]), ("M2", ["A"])] := by
  decide

/-- C2, amended. On the records `[{userName:"A",abbreviation:"M1"}, {userName:"B"},
{userName:"A",abbreviation:"M2"}]` the Uploader Aggregator produces
`{all:["A"], M1:["A"], M2:["A"]}`: the record of `B` has no `abbreviation` and is skipped. -/
theorem example_payload :
    updateUploaderCache exampleNotes = .ok [("all", ["A"]), ("M1", ["A"]), ("M2", ["A"])] := by
  decide

/-- C3. A record whose `userName` or `abbreviation` is missing or empty adds its name to no
list: the result of the Uploader Aggregator is the one computed with the record removed. -/
theorem skipped_record_contributes_nothing (before after : List Doc) (doc : Doc)
    (h : truthy doc.userName = false ∨ truthy doc.abbreviation = false) :
    updateUploaderCache (before ++ doc :: after) = updateUploaderCache (before ++ after) := by
  unfold updateUploaderCache
  rw [uploaderLoop_append, uploaderLoop_append]
  cases uploaderLoop { uploaderMapBySubject := [], allUploadersSet := [] } before with
  | error e => rfl
  | ok st =>
      simp only [uploaderLoop]
      rw [uploaderStep_skip st h]

theorem skipped_record_contributes_nothing_witness :
    updateUploaderCache
        ([{ id := "n1", userName := some "A", abbreviation := some "M1" }]
          ++ { id := "n2", userName := some "B" }
            :: [{ id := "n3", userName := some "A", abbreviation := some "M2" }])
      = updateUploaderCache
        ([{ id := "n1", userName := some "A", abbreviation := some "M1" }]
          ++ [{ id := "n3", userName := some "A", abbreviation := some "M2" }]) :=
  skipped_record_contributes_nothing _ _ _ (Or.inr (by decide))

/-- C4 fails on a creator named `constructor`: the count table reads the function inherited
from `Object.prototype`, the total of the entry is text, the comparator yields `NaN` against it
and the sort leaves the array as it was built. The entry of `X` with total 1 comes before the
entry of `Y` with total 2, so `total` increases along the array; and in the entry of
`constructor` the fields `forms` and `youtube` are functions, which are not written to the
payload, and `total` is no sum of counts. -/
theorem stats_not_ordered_with_inherited_name :
    updateTeacherStats notesWithConstructor [] [] =
      [{ name := "X", notes := .number 1, forms := .number 0, youtube := .number 0,
         total := .number 1 },
       { name := "constructor", notes := .text, forms := .function, youtube := .function,
         total := .text },
       { name := "Y", notes := .number 2, forms := .number 0, youtube := .number 0,
         total := .number 2 }] := by
  decide

/-- C5 as stated fails: on a collection of 250 documents the fetcher returns after four page
requests, and three iterations of its loop do not reach the `break`. -/
theorem three_requests_do_not_suffice :
    collection250.length = 250
      ∧ fetchAllDocuments (listDocuments collection250) 4 = some (.ok (collection250, 4))
      ∧ fetchAllDocuments (listDocuments collection250) 4 ≠ some (.ok (collection250, 3))
      ∧ fetchAllDocuments (listDocuments collection250) 3 = none := by
  decide

/-- C5, amended. On a stable collection of exactly 250 documents with distinct non-empty
identifiers, where a page request returns the next at most 100 documents after the cursor, the
fetcher issues exactly four page requests (pages of 100, 100, 50 and 0 documents) and returns
the 250 documents, each once. -/
theorem fetch_250_issues_four_requests (collection : List Doc) (hlen : collection.length = 250)
    (hid : (collection.map Doc.id).Nodup) (hne : ∀ d ∈ collection, d.id ≠ "") (fuel : Nat)
    (hfuel : 4 ≤ fuel) :
    fetchAllDocuments (listDocuments collection) fuel = some (.ok (collection, 4)) := by
  have h := fetchAllDocuments_snapshot collection hid hne fuel (by rw [hlen]; exact hfuel)
  rw [hlen] at h
  exact h

theorem fetch_250_issues_four_requests_witness :
    fetchAllDocuments (listDocuments collection250) 7 = some (.ok (collection250, 4)) :=
  fetch_250_issues_four_requests collection250 collection250_length collection250_ids_nodup
    collection250_ids_nonempty 7 (by decide)

/-- C6. On a finite collection whose documents have distinct non-empty identifiers, where a
page request returns the first at most 100 documents after the cursor in the collection order,
the fetcher terminates: once the loop is given as many iterations as there are non-empty pages
plus one, it stops at the request that returns no record, the first such one, and returns the
documents of the collection in order, each once. -/
theorem fetchAllDocuments_complete (collection : List Doc) (hid : (collection.map Doc.id).Nodup)
    (hne : ∀ d ∈ collection, d.id ≠ "") (fuel : Nat)
    (hfuel : (collection.length + 99) / 100 + 1 ≤ fuel) :
    fetchAllDocuments (listDocuments collection) fuel
      = some (.ok (collection, (collection.length + 99) / 100 + 1)) :=
  fetchAllDocuments_snapshot collection hid hne fuel hfuel

theorem fetchAllDocuments_complete_witness :
    fetchAllDocuments (listDocuments collection3) 2 = some (.ok (collection3, 2)) :=
  fetchAllDocuments_complete collection3 (by decide) (by decide) 2 (by decide)

/-- C7. On a store with no document at the identifier, `upsertDocument` with `d1` finds the
update failing with not-found (code 404), falls back to the create and leaves a document
holding `d1`; a following `upsertDocument` with `d2` leaves the document holding exactly `d2`;
the documents at other identifiers are as they were after both calls. -/
theorem upsert_creates_then_replaces {α : Type} (store : Store α) (collectionId documentId : String)
    (d1 d2 : α) (h : store.get collectionId documentId = none) :
    ∃ e s1 s2,
      (storeDb α).updateDocument store collectionId documentId d1 = .error e
        ∧ e.code = some 404
        ∧ (storeDb α).createDocument store collectionId documentId d1 = .ok s1
        ∧ upsertDocument (storeDb α) store collectionId documentId d1 = .ok s1
        ∧ s1.get collectionId documentId = some d1
        ∧ upsertDocument (storeDb α) s1 collectionId documentId d2 = .ok s2
        ∧ s2.get collectionId documentId = some d2
        ∧ ∀ c i, (c, i) ≠ (collectionId, documentId) →
            s1.get c i = store.get c i ∧ s2.get c i = store.get c i := by
  obtain ⟨s2, h2, hget2, hother2⟩ :=
    upsertDocument_storeDb (store ++ [((collectionId, documentId), d1)]) collectionId documentId d2
  have hget1 : (store ++ [((collectionId, documentId), d1)]).get collectionId documentId = some d1 := by
    rw [Store.get_append, h]; simp
  have hother1 : ∀ c i, (c, i) ≠ (collectionId, documentId) →
      (store ++ [((collectionId, documentId), d1)]).get c i = store.get c i := by
    intro c i hne
    rw [Store.get_append]
    cases store.get c i with
    | some v => rfl
    | none => simp [Ne.symm hne]
  refine ⟨{ code := some 404, message := "Document with the requested ID could not be found." },
    store ++ [((collectionId, documentId), d1)], s2, ?_, rfl, ?_, ?_, hget1, h2, hget2, ?_⟩
  · simp [storeDb, h]
  · simp [storeDb, h]
  · simp [upsertDocument, storeDb, h]
  · intro c i hne
    exact ⟨hother1 c i hne, (hother2 c i hne).trans (hother1 c i hne)⟩

theorem upsert_creates_then_replaces_witness :
    ∃ e s1 s2,
      (storeDb Nat).updateDocument [(("cache", "other"), 7)] "cache" "links" 1 = .error e
        ∧ e.code = some 404
        ∧ (storeDb Nat).createDocument [(("cache", "other"), 7)] "cache" "links" 1 = .ok s1
        ∧ upsertDocument (storeDb Nat) [(("cache", "other"), 7)] "cache" "links" 1 = .ok s1
        ∧ s1.get "cache" "links" = some 1
        ∧ upsertDocument (storeDb Nat) s1 "cache" "links" 2 = .ok s2
        ∧ s2.get "cache" "links" = some 2
        ∧ ∀ c i, (c, i) ≠ ("cache", "links") →
            s1.get c i = Store.get [(("cache", "other"), 7)] c i
              ∧ s2.get c i = Store.get [(("cache", "other"), 7)] c i :=
  upsert_creates_then_replaces [(("cache", "other"), 7)] "cache" "links" 1 2 (by decide)

/-- C8. For three aggregators listed in the order in which they settle and writing distinct
cache documents: the response is `{success: true, message}` exactly when the three complete
without throwing; when one throws, the response is `{success: false, error}` with the message
of the first error thrown and status 500; and at the time of the response each aggregator that
completed before holds its new payload in its cache document, nothing being rolled back. -/
theorem main_reports_failure_keeps_writes {α : Type} (store : Store α) (a b c : Aggregator α)
    (hab : a.target ≠ b.target) (hac : a.target ≠ c.target) (hbc : b.target ≠ c.target) :
    ((main (storeDb α) store [a, b, c]).1
          = { body := .success "All scheduled tasks completed.", status := 200 }
        ↔ ∃ pa pb pc, a.result = .ok pa ∧ b.result = .ok pb ∧ c.result = .ok pc)
      ∧ (∀ e, firstThrown [a, b, c] = some e →
          (main (storeDb α) store [a, b, c]).1 = { body := .failure e.message, status := 500 })
      ∧ (∀ t ∈ completedBefore [a, b, c], ∀ p, t.result = .ok p →
          (main (storeDb α) store [a, b, c]).2.get t.collectionId t.documentId = some p) := by
  have hnodup : (([a, b, c] : List (Aggregator α)).map Aggregator.target).Nodup := by
    simp [hab, hac, hbc]
  obtain ⟨h₁, h₂, _⟩ := awaitAll_storeDb [a, b, c] store hnodup
  have hmain : main (storeDb α) store [a, b, c] =
      match firstThrown [a, b, c] with
      | none => ({ body := .success "All scheduled tasks completed.", status := 200 },
          (awaitAll (storeDb α) store [a, b, c]).1)
      | some e => ({ body := .failure e.message, status := 500 },
          (awaitAll (storeDb α) store [a, b, c]).1) := by
    unfold main
    rw [← h₁]
    rcases awaitAll (storeDb α) store [a, b, c] with ⟨s', _ | e⟩ <;> rfl
  refine ⟨?_, ?_, ?_⟩
  · rw [hmain]
    cases ha : a.result <;> cases hb : b.result <;> cases hc : c.result <;>
      simp [firstThrown, ha, hb, hc]
  · intro e he
    rw [hmain, he]
  · intro t ht p hp
    have := h₂ t ht p hp
    rw [hmain]
    cases firstThrown [a, b, c] <;> exact this

theorem main_reports_failure_keeps_writes_witness :
    (main (storeDb Nat) [] [linksDone, uploaderFailed, statsDone]).1
        = { body := .failure "fetch failed", status := 500 }
      ∧ (main (storeDb Nat) [] [linksDone, uploaderFailed, statsDone]).2.get "cache" "links"
        = some 1 :=
  ⟨(main_reports_failure_keeps_writes [] linksDone uploaderFailed statsDone
      (by decide) (by decide) (by decide)).2.1 _ rfl,
   (main_reports_failure_keeps_writes [] linksDone uploaderFailed statsDone
      (by decide) (by decide) (by decide)).2.2 linksDone (by simp [completedBefore, linksDone]) 1 rfl⟩

/-- C9 fails on a subject named `all`: both records have both fields, yet the list of the
subject replaces the list of all uploaders, so the key `all` holds `["B"]` without `A`. -/
theorem uploader_all_overwritten :
    Qualifies { id := "n1", userName := some "A", abbreviation := some "M1" } "A" "M1"
      ∧ updateUploaderCache notesWithSubjectAll = .ok [("all", ["B"]), ("M1", ["A"])] := by
  refine ⟨⟨rfl, rfl, by decide, by decide⟩, by decide⟩

/-- C10 fails on a creator named `__proto__`: the assignment to that key of the count table is
ignored, and the array has no entry for the name although one note document carries it. -/
theorem stats_drops_proto_creator :
    occurrences notesOfProto Doc.userName "__proto__" = 1
      ∧ countCreators notesOfProto Doc.userName = []
      ∧ updateTeacherStats notesOfProto [] [] = [] := by
  decide

end ScheduledTasks
